import Mathlib

/-!
Verification of the envgg environment-resolution and secret-store engine.

The definitions below are a shallow embedding of the Rust sources:
  - src/lib.rs : line classifier (parse_env_line), file reader (read_env_file),
    keyring facade (add_secret_to_keyring, list_secret_labels, ...).
  - src/main.rs : resolution pipeline (process_env_file) and the command runner.
  - src/ui.rs : key-name validator (is_valid_env_var_name) and the
    add-secret dialog submit handler (create_add_dialog_buttons).

Rust strings are embedded as List Char (the classifier only ever splits at
ASCII delimiters, so byte positions and char positions agree on every path it
takes).  A Rust panic is embedded as Option.none; fallible operations return
Option / a dedicated result type.  The secret store is a parameter of type
List Char -> Option (List Char): none covers both NotFound and any other
store error, since process_env_file treats every lookup error alike.
-/

namespace Envgg

/-- The double-quote character, written via its code point. -/
def dquote : Char := Char.ofNat 34

/-- The single-quote character, written via its code point. -/
def squote : Char := Char.ofNat 39

/-- Whitespace as recognised by Rust's char::is_whitespace (the Unicode
White_Space property), used by str::trim / trim_end in the classifier. -/
def rustWs (c : Char) : Bool :=
  c = Char.ofNat 0x09 || c = Char.ofNat 0x0A || c = Char.ofNat 0x0B ||
  c = Char.ofNat 0x0C || c = Char.ofNat 0x0D || c = Char.ofNat 0x20 ||
  c = Char.ofNat 0x85 || c = Char.ofNat 0xA0 || c = Char.ofNat 0x1680 ||
  c = Char.ofNat 0x2000 || c = Char.ofNat 0x2001 || c = Char.ofNat 0x2002 ||
  c = Char.ofNat 0x2003 || c = Char.ofNat 0x2004 || c = Char.ofNat 0x2005 ||
  c = Char.ofNat 0x2006 || c = Char.ofNat 0x2007 || c = Char.ofNat 0x2008 ||
  c = Char.ofNat 0x2009 || c = Char.ofNat 0x200A || c = Char.ofNat 0x2028 ||
  c = Char.ofNat 0x2029 || c = Char.ofNat 0x202F || c = Char.ofNat 0x205F ||
  c = Char.ofNat 0x3000

/-- str::trim_end - drop trailing whitespace. -/
def dropTrailingWs (l : List Char) : List Char :=
  l.rdropWhile rustWs

/-- str::trim - drop leading and trailing whitespace. -/
def rustTrim (l : List Char) : List Char :=
  dropTrailingWs (l.dropWhile rustWs)

/-- The EnvLine sum type of src/lib.rs. -/
inductive EnvLine where
  | Comment : EnvLine
  | Alias (key keyring_key : List Char) : EnvLine
  | Direct (key value : List Char) : EnvLine
  | Lookup (key : List Char) : EnvLine
deriving DecidableEq, Repr

/-- str::find applied to the char '=' : split the list at the first '=',
returning the part strictly before it and the part strictly after it,
or none when no '=' occurs. -/
def splitFirstEq : List Char → Option (List Char × List Char)
  | [] => none
  | c :: cs =>
    if c = '=' then some ([], cs)
    else (splitFirstEq cs).map (fun p => (c :: p.1, p.2))

/-- The part of parse_env_line after the split at the first '=': key and
value are already trimmed.  Mirrors lib.rs lines 33-49: the strip_prefix
test for '$' runs first, on the still-quoted value; then matching outer
quotes are removed via the byte slice value[1..value.len()-1].  When the
value is a single quote character that slice is [1..0], which panics in
Rust; the panic is embedded as none. -/
def classifyValue (key value : List Char) : Option EnvLine :=
  if value.head? = some '$' then
    some (EnvLine.Alias key (rustTrim (value.drop 1)))
  else if (value.head? = some dquote && value.getLast? = some dquote)
       || (value.head? = some squote && value.getLast? = some squote) then
    if 2 ≤ value.length then
      some (EnvLine.Direct key ((value.drop 1).dropLast))
    else
      none
  else
    some (EnvLine.Direct key value)

/-- parse_env_line of src/lib.rs lines 20-55 (the source's local binding
trimmed = line.trim() is written out as rustTrim line).  Total except for
the quote-slice panic modelled in classifyValue (none = panic). -/
def parse_env_line (line : List Char) : Option EnvLine :=
  if (rustTrim line).isEmpty then some EnvLine.Comment
  else if (rustTrim line).head? = some '#' then some EnvLine.Comment
  else
    match splitFirstEq (rustTrim line) with
    | some (l, r) => classifyValue (rustTrim l) (rustTrim r)
    | none => some (EnvLine.Lookup (rustTrim line))

/-- The resolution of one directive in process_env_file (main.rs lines
176-203): Comment contributes nothing, Direct contributes its pair, Alias
and Lookup contribute their pair on a store hit and nothing on a miss. -/
def resolveLine (store : List Char → Option (List Char)) :
    EnvLine → Option (List Char × List Char)
  | EnvLine.Comment => none
  | EnvLine.Direct key value => some (key, value)
  | EnvLine.Alias key keyring_key =>
      (store keyring_key).map (fun v => (key, v))
  | EnvLine.Lookup key => (store key).map (fun v => (key, v))

/-- The stream of surviving (key, value) pairs produced by the filter_map
stage of process_env_file, in source line order (the stream combinators
poll the lines sequentially). -/
def resolvedPairs (store : List Char → Option (List Char))
    (lines : List EnvLine) : List (List Char × List Char) :=
  lines.filterMap (resolveLine store)

/-- The warning emitted for a failed Alias/Lookup resolution (main.rs
lines 182-201): the pair is (exported key, keyring name attempted).
For a Lookup the keyring name is the key itself. -/
def warningFor (store : List Char → Option (List Char)) :
    EnvLine → Option (List Char × List Char)
  | EnvLine.Alias key keyring_key =>
      if store keyring_key = none then some (key, keyring_key) else none
  | EnvLine.Lookup key =>
      if store key = none then some (key, key) else none
  | _ => none

/-- All warnings emitted during one resolution, in line order. -/
def warnings (store : List Char → Option (List Char))
    (lines : List EnvLine) : List (List Char × List Char) :=
  lines.filterMap (warningFor store)

/-- The content of the HashMap built by collect in process_env_file: one
entry per key, carrying the value of the last surviving pair with that
key.  The list keeps each kept pair at the position of its last
contribution; the HashMap itself has no order, so process_env_file's
output is related to this list only up to permutation (processResult). -/
def envEntries : List (List Char × List Char) → List (List Char × List Char)
  | [] => []
  | p :: rest =>
    if rest.any (fun q => q.1 == p.1) then envEntries rest
    else p :: envEntries rest

/-- The output relation of the happy path of process_env_file (main.rs
lines 171-209): the returned Vec is the HashMap's entries enumerated by
into_iter in an unspecified order, hence any permutation of envEntries. -/
def processResult (store : List Char → Option (List Char))
    (lines : List EnvLine) (out : List (List Char × List Char)) : Prop :=
  out.Perm (envEntries (resolvedPairs store lines))

/-- Lookup of the value contributed by the last surviving pair for a key. -/
def lookupLast (pairs : List (List Char × List Char)) (k : List Char) :
    Option (List Char) :=
  ((pairs.reverse).find? (fun p => p.1 == k)).map Prod.snd

/-- First-match lookup in an association list. -/
def tableLookup (m : List (List Char × List Char)) (k : List Char) :
    Option (List Char) :=
  (m.find? (fun p => p.1 == k)).map Prod.snd

/-- Modelled from the spec: the ordering the specification asserts for the
resolved environment - entries listed by the source line that (last)
contributed them: an update moves the key to the position of its newer
line.  Stated for comparison with processResult; the source builds a
std HashMap and guarantees no order. -/
def specOrderedEnvironment (store : List Char → Option (List Char))
    (lines : List EnvLine) : List (List Char × List Char) :=
  (resolvedPairs store lines).foldl
    (fun m p => (m.filter (fun q => !(q.1 == p.1))) ++ [p]) []

/-- Result of read_env_file (lib.rs lines 73-81) on an abstract file
system: none for the file means File::open or the line iterator failed. -/
inductive ReadResult where
  | ioError : ReadResult
  | crashed : ReadResult
  | ok (lines : List EnvLine) : ReadResult
deriving DecidableEq, Repr

/-- read_env_file: propagate the I/O failure; classify every line.  A
classifier panic (see classifyValue) aborts the process, embedded as
ReadResult.crashed. -/
def read_env_file (file : Option (List (List Char))) : ReadResult :=
  match file with
  | none => ReadResult.ioError
  | some raws =>
    match raws.mapM parse_env_line with
    | none => ReadResult.crashed
    | some lines => ReadResult.ok lines

/-- Result of process_env_file: the error from read_env_file propagates
through the ? operator; otherwise the resolved entries are produced (order
abstracted, see processResult). -/
inductive ResolveResult where
  | ioError : ResolveResult
  | crashed : ResolveResult
  | ok (env : List (List Char × List Char)) : ResolveResult
deriving DecidableEq, Repr

/-- process_env_file (main.rs lines 171-209) over the abstract file. -/
def process_env_file (store : List Char → Option (List Char))
    (file : Option (List (List Char))) : ResolveResult :=
  match read_env_file file with
  | ReadResult.ioError => ResolveResult.ioError
  | ReadResult.crashed => ResolveResult.crashed
  | ReadResult.ok lines => ResolveResult.ok (envEntries (resolvedPairs store lines))

/-- Outcome of the command-running path of main (main.rs lines 158-165):
on Err from process_env_file main returns the error before Command::new;
only on Ok is the subprocess spawned with the resolved environment. -/
inductive MainOutcome where
  | errored : MainOutcome
  | crashed : MainOutcome
  | spawned (env : List (List Char × List Char)) : MainOutcome
deriving DecidableEq, Repr

/-- The run-command path of main. -/
def main_run (store : List Char → Option (List Char))
    (file : Option (List (List Char))) : MainOutcome :=
  match process_env_file store file with
  | ResolveResult.ioError => MainOutcome.errored
  | ResolveResult.crashed => MainOutcome.crashed
  | ResolveResult.ok env => MainOutcome.spawned env

/-- Rust char::is_ascii_uppercase. -/
def isAsciiUppercase (c : Char) : Bool := 'A' ≤ c && c ≤ 'Z'

/-- Rust char::is_ascii_digit. -/
def isAsciiDigit (c : Char) : Bool := '0' ≤ c && c ≤ '9'

/-- is_valid_env_var_name of src/ui.rs lines 513-534, with the same
control flow: empty rejected; first char must be ASCII uppercase; every
later char ASCII uppercase, ASCII digit or underscore; finally the
(redundant) contains-an-uppercase check. -/
def is_valid_env_var_name (name : String) : Bool :=
  match name.data with
  | [] => false
  | first :: rest =>
    if !(isAsciiUppercase first) then false
    else if rest.any
        (fun ch => !(isAsciiUppercase ch) && !(isAsciiDigit ch) && !(ch = '_'))
      then false
    else name.data.any (fun c => isAsciiUppercase c)

/-- What the Add-Secret button's click handler does next. -/
inductive AddAction where
  | notify (msg : String) : AddAction
  | storeAdd (key value : String) : AddAction
deriving DecidableEq, Repr

/-- Notification text for an invalid key (ui.rs line 493). -/
def invalidKeyMsg : String :=
  "Key must be in SCREAMING_CASE (uppercase letters, numbers, and underscores only, starting with a letter)"

/-- Notification text for an empty value (ui.rs line 500). -/
def emptyValueMsg : String := "Key and value cannot be empty"

/-- The on_click handler of the Add button in create_add_dialog_buttons
(ui.rs lines 483-509): validate the key name first, then the value, and
only then close the dialog and perform the keyring write
(add_secret_to_keyring), represented by AddAction.storeAdd. -/
def add_dialog_on_click (key value : String) : AddAction :=
  if !(is_valid_env_var_name key) then AddAction.notify invalidKeyMsg
  else if value = "" then AddAction.notify emptyValueMsg
  else AddAction.storeAdd key value

/-- One item returned by the keyring search, with its attribute map. -/
structure StoreItem where
  attrs : List (String × String)
deriving DecidableEq, Repr

/-- item.get_attributes().get(name) for one attribute name. -/
def getAttr (item : StoreItem) (name : String) : Option String :=
  (item.attrs.find? (fun p => p.1 == name)).map Prod.snd

/-- The label extraction of list_secret_labels (lib.rs lines 102-110):
probe the username attribute, fall back to account, error (none) when
neither is present. -/
def itemLabel (item : StoreItem) : Option String :=
  match getAttr item ("username") with
  | some v => some v
  | none => getAttr item ("account")

/-- list_secret_labels of src/lib.rs lines 95-114: map itemLabel over the
items returned by the store search, short-circuiting on the first item
without a usable attribute (collect over Result).  No sorting occurs. -/
def list_secret_labels : List StoreItem → Option (List String)
  | [] => some []
  | item :: rest =>
    (itemLabel item).bind
      (fun name => (list_secret_labels rest).map (fun ns => name :: ns))

/-- Lexicographic order on the characters of two labels, the order Rust's
Vec sort would use on these strings. -/
def labelLe : List Char → List Char → Bool
  | [], _ => true
  | _ :: _, [] => false
  | x :: xs, y :: ys =>
    if x < y then true
    else if y < x then false
    else labelLe xs ys

/-- A label sequence sorted by literal string value (non-decreasing). -/
def sortedLabels : List String → Bool
  | [] => true
  | [_] => true
  | a :: b :: t => labelLe a.data b.data && sortedLabels (b :: t)

/-! ### Helper lemmas about trimming and splitting -/

theorem dropWhile_append_cons (p : Char → Bool) (a : List Char) (x : Char)
    (b : List Char) (hx : p x = false) :
    (a ++ x :: b).dropWhile p = a.dropWhile p ++ x :: b := by
  rw [List.dropWhile_append]
  split
  next h =>
    rw [List.isEmpty_iff] at h
    rw [h, List.nil_append, List.dropWhile_cons, hx]
    simp
  next h => rfl

theorem rdropWhile_append_cons (p : Char → Bool) (a : List Char) (x : Char)
    (b : List Char) (hx : p x = false) :
    (a ++ x :: b).rdropWhile p = a ++ x :: b.rdropWhile p := by
  unfold List.rdropWhile
  rw [List.reverse_append, List.reverse_cons, List.append_assoc,
    List.singleton_append, dropWhile_append_cons p _ x _ hx]
  rw [List.reverse_append, List.reverse_cons, List.reverse_reverse]
  simp

theorem rdropWhile_cons_neg (p : Char → Bool) (c : Char) (cs : List Char)
    (hc : p c = false) :
    (c :: cs).rdropWhile p = c :: cs.rdropWhile p := by
  have := rdropWhile_append_cons p [] c cs hc
  simpa using this

theorem rdropWhile_cons_eq (p : Char → Bool) (c : Char) (cs : List Char) :
    (c :: cs).rdropWhile p =
      if (cs.rdropWhile p).isEmpty then (if p c then [] else [c])
      else c :: cs.rdropWhile p := by
  unfold List.rdropWhile
  rw [List.reverse_cons, List.dropWhile_append]
  by_cases hE : (List.dropWhile p cs.reverse).isEmpty = true
  · rw [List.isEmpty_iff] at hE
    rw [hE]
    simp only [List.isEmpty_nil, List.reverse_nil, if_true,
      List.dropWhile_cons, List.dropWhile_nil]
    split <;> simp
  · have hE' : (List.dropWhile p cs.reverse).isEmpty = false := by
      simpa using hE
    rw [hE']
    have hE'' : ((List.dropWhile p cs.reverse).reverse).isEmpty = false := by
      rw [List.isEmpty_eq_false_iff_exists_mem] at hE' ⊢
      obtain ⟨x, hx⟩ := hE'
      exact ⟨x, List.mem_reverse.mpr hx⟩
    simp only [Bool.false_eq_true, if_false, hE'']
    simp

theorem dropWhile_rdropWhile_comm (p : Char → Bool) (l : List Char) :
    (l.rdropWhile p).dropWhile p = (l.dropWhile p).rdropWhile p := by
  induction l with
  | nil => simp [List.rdropWhile]
  | cons c cs ih =>
    by_cases hc : p c = true
    · rw [List.dropWhile_cons, hc, if_pos rfl, ← ih]
      rw [rdropWhile_cons_eq]
      by_cases hE : (cs.rdropWhile p).isEmpty = true
      · rw [List.isEmpty_iff] at hE
        rw [if_pos (by rw [hE]; rfl), hE, if_pos hc]
      · have hE' : (cs.rdropWhile p).isEmpty = false := by simpa using hE
        rw [hE']
        simp only [Bool.false_eq_true, if_false]
        rw [List.dropWhile_cons, hc, if_pos rfl]
    · have hc' : p c = false := by simpa using hc
      rw [List.dropWhile_cons, hc']
      simp only [Bool.false_eq_true, if_false]
      rw [rdropWhile_cons_neg p c cs hc', List.dropWhile_cons, hc']
      simp only [Bool.false_eq_true, if_false]

theorem rustTrim_append_eq (l r : List Char) :
    rustTrim (l ++ '=' :: r) = l.dropWhile rustWs ++ '=' :: dropTrailingWs r := by
  have hx : rustWs '=' = false := by decide
  unfold rustTrim dropTrailingWs
  rw [dropWhile_append_cons rustWs l '=' r hx,
    rdropWhile_append_cons rustWs _ '=' r hx]

theorem rustTrim_dropWhile (l : List Char) :
    rustTrim (l.dropWhile rustWs) = rustTrim l := by
  unfold rustTrim
  rw [List.dropWhile_idempotent]

theorem rustTrim_dropTrailing (r : List Char) :
    rustTrim (dropTrailingWs r) = rustTrim r := by
  unfold rustTrim dropTrailingWs
  rw [dropWhile_rdropWhile_comm, List.rdropWhile_idempotent]

theorem splitFirstEq_append (a b : List Char) (ha : '=' ∉ a) :
    splitFirstEq (a ++ '=' :: b) = some (a, b) := by
  induction a with
  | nil => simp [splitFirstEq]
  | cons c t ih =>
    have hc : c ≠ '=' := fun h => ha (h ▸ List.mem_cons_self c t)
    have ht : '=' ∉ t := fun h => ha (List.mem_cons_of_mem c h)
    simp only [List.cons_append, splitFirstEq, if_neg hc, List.append_eq,
      ih ht, Option.map_some']

/-- Shared lemma: a line with an '=' is classified by splitting at the first
'=' and handing the trimmed sides to classifyValue. -/
theorem parse_split (l r : List Char) (hne : '=' ∉ l)
    (hh : (l.dropWhile rustWs).head? ≠ some '#') :
    parse_env_line (l ++ '=' :: r) = classifyValue (rustTrim l) (rustTrim r) := by
  have htrim := rustTrim_append_eq l r
  have hmem : '=' ∉ l.dropWhile rustWs := fun h =>
    hne ((List.dropWhile_suffix rustWs).sublist.subset h)
  have hni : ¬(l.dropWhile rustWs ++ '=' :: dropTrailingWs r).isEmpty = true := by
    cases l.dropWhile rustWs <;> simp
  have hhd : ¬(l.dropWhile rustWs ++ '=' :: dropTrailingWs r).head? = some '#' := by
    cases h : l.dropWhile rustWs with
    | nil => simp
    | cons c t =>
      rw [h] at hh
      simpa using hh
  unfold parse_env_line
  rw [htrim, if_neg hni, if_neg hhd, splitFirstEq_append _ _ hmem]
  show classifyValue (rustTrim (l.dropWhile rustWs)) (rustTrim (dropTrailingWs r)) =
    classifyValue (rustTrim l) (rustTrim r)
  rw [rustTrim_dropWhile, rustTrim_dropTrailing]

/-! ### Claim theorems -/

/-- Claim C1 (code bug): the classifier is not total.  On the line
KEY=" the value after the first '=' is the single double-quote character,
the matching-quote test succeeds, and the slice value[1..0] panics in the
source; the model evaluates to none (the embedded panic) at that input. -/
theorem claim_c1_classifier_panics_on_lone_quote :
    parse_env_line (("KEY=\"").data) = none := by decide

/-- Claim C8: is_valid_env_var_name accepts exactly the nonempty names
whose first character is an ASCII uppercase letter and whose remaining
characters are ASCII uppercase letters, ASCII digits or underscores; in
particular it accepts FOO_BAR2 and rejects foo, 2FOO, the empty string
and FOO-BAR. -/
theorem claim_c8_valid_name_iff (name : String) :
    (is_valid_env_var_name name = true ↔
      ∃ c cs, name.data = c :: cs ∧ isAsciiUppercase c = true ∧
        ∀ ch ∈ cs,
          isAsciiUppercase ch = true ∨ isAsciiDigit ch = true ∨ ch = '_') ∧
    is_valid_env_var_name ("FOO_BAR2") = true ∧
    is_valid_env_var_name ("foo") = false ∧
    is_valid_env_var_name ("2FOO") = false ∧
    is_valid_env_var_name ("") = false ∧
    is_valid_env_var_name ("FOO-BAR") = false := by
  refine ⟨?_, by decide, by decide, by decide, by decide, by decide⟩
  obtain ⟨data⟩ := name
  show is_valid_env_var_name (String.mk data) = true ↔
    ∃ c cs, data = c :: cs ∧ _
  cases data with
  | nil => simp [is_valid_env_var_name]
  | cons first rest =>
    simp only [is_valid_env_var_name]
    by_cases h1 : isAsciiUppercase first = true
    · rw [h1]
      simp only [Bool.not_true, Bool.false_eq_true, if_false]
      by_cases h2 : rest.any
          (fun ch => !(isAsciiUppercase ch) && !(isAsciiDigit ch) && !(ch = '_')) = true
      · rw [if_pos h2]
        constructor
        · intro h; exact absurd h (by simp)
        · rintro ⟨c, cs, hcs, hc, hall⟩
          injection hcs with hfc hrc
          rw [List.any_eq_true] at h2
          obtain ⟨ch, hmem, hbad⟩ := h2
          have hgood := hall ch (hrc ▸ hmem)
          simp only [Bool.and_eq_true, Bool.not_eq_true', decide_eq_false_iff_not] at hbad
          obtain ⟨⟨hbu, hbd⟩, hbe⟩ := hbad
          rcases hgood with h | h | h
          · rw [h] at hbu; exact absurd hbu (by simp)
          · rw [h] at hbd; exact absurd hbd (by simp)
          · exact absurd h hbe
      · rw [if_neg h2]
        constructor
        · intro _
          refine ⟨first, rest, rfl, h1, ?_⟩
          intro ch hmem
          by_contra hcon
          push_neg at hcon
          obtain ⟨hu, hd, he⟩ := hcon
          have hu' : isAsciiUppercase ch = false := by simpa using hu
          have hd' : isAsciiDigit ch = false := by simpa using hd
          exact h2 (List.any_eq_true.mpr ⟨ch, hmem, by simp [hu', hd', he]⟩)
        · intro _
          rw [List.any_eq_true]
          exact ⟨first, List.mem_cons_self _ _, h1⟩
    · have h1' : isAsciiUppercase first = false := by simpa using h1
      rw [h1']
      simp only [Bool.not_false, if_true]
      constructor
      · intro h; exact absurd h (by simp)
      · rintro ⟨c, cs, hcs, hc, -⟩
        injection hcs with hfc hrc
        rw [← hfc] at hc
        rw [h1'] at hc
        exact absurd hc (by simp)

/-- Claim C6: a key that fails the naming rule makes the Add-Secret click
handler emit the validation notification and never the store write. -/
theorem claim_c6_invalid_key_never_reaches_store (key value : String)
    (h : is_valid_env_var_name key = false) :
    add_dialog_on_click key value = AddAction.notify invalidKeyMsg ∧
    ∀ k v, add_dialog_on_click key value ≠ AddAction.storeAdd k v := by
  unfold add_dialog_on_click
  rw [h]
  simp

/-- Witness for C6 at the concrete invalid key foo. -/
theorem claim_c6_witness :
    is_valid_env_var_name ("foo") = false ∧
    add_dialog_on_click ("foo") ("bar") = AddAction.notify invalidKeyMsg :=
  ⟨by decide, (claim_c6_invalid_key_never_reaches_store ("foo") ("bar") (by decide)).1⟩

/-- Claim C7: when the env file cannot be opened or read, process_env_file
propagates the I/O error, main returns it, and no subprocess is spawned
with any environment. -/
theorem claim_c7_io_error_aborts (store : List Char → Option (List Char)) :
    process_env_file store none = ResolveResult.ioError ∧
    main_run store none = MainOutcome.errored ∧
    ∀ env, main_run store none ≠ MainOutcome.spawned env := by
  refine ⟨rfl, rfl, fun env h => ?_⟩
  simp [main_run, process_env_file, read_env_file] at h

/-- Claim C9: on any line with an '=', the classifier splits at the first
'=' only: the trimmed text left of it becomes the key and the whole
remainder (which may itself contain '=') becomes the value handed to the
value classification; in particular KEY="a=b" yields Direct KEY a=b. -/
theorem claim_c9_split_at_first_eq (l r : List Char) (hne : '=' ∉ l)
    (hh : (l.dropWhile rustWs).head? ≠ some '#') :
    parse_env_line (l ++ '=' :: r) = classifyValue (rustTrim l) (rustTrim r) ∧
    parse_env_line (("KEY=\"a=b\"").data) =
      some (EnvLine.Direct (("KEY").data) (("a=b").data)) :=
  ⟨parse_split l r hne hh, by decide⟩

/-- Witness for C9 at the concrete line KEY="a=b". -/
theorem claim_c9_witness :
    parse_env_line (("KEY").data ++ '=' :: ("\"a=b\"").data) =
      classifyValue (rustTrim (("KEY").data)) (rustTrim (("\"a=b\"").data)) ∧
    parse_env_line (("KEY=\"a=b\"").data) =
      some (EnvLine.Direct (("KEY").data) (("a=b").data)) :=
  ⟨(claim_c9_split_at_first_eq (("KEY").data) (("\"a=b\"").data)
      (by decide) (by decide)).1,
   (claim_c9_split_at_first_eq (("KEY").data) (("\"a=b\"").data)
      (by decide) (by decide)).2⟩

/-- Claim C10: a quoted value whose interior begins with the dollar sign
is classified Direct with the outer quotes stripped, never Alias, because
the dollar test runs on the still-quoted value. -/
theorem claim_c10_quoted_dollar_is_direct (l interior : List Char) (q : Char)
    (hne : '=' ∉ l) (hh : (l.dropWhile rustWs).head? ≠ some '#')
    (hq : q = dquote ∨ q = squote) (hdol : interior.head? = some '$') :
    parse_env_line (l ++ '=' :: q :: (interior ++ [q])) =
      some (EnvLine.Direct (rustTrim l) interior) ∧
    ∀ a b, parse_env_line (l ++ '=' :: q :: (interior ++ [q])) ≠
      some (EnvLine.Alias a b) := by
  have hqw : rustWs q = false := by rcases hq with h | h <;> rw [h] <;> decide
  have hqd : ¬q = '$' := by rcases hq with h | h <;> rw [h] <;> decide
  have hstep := parse_split l (q :: (interior ++ [q])) hne hh
  have htr : rustTrim (q :: (interior ++ [q])) = q :: (interior ++ [q]) := by
    unfold rustTrim dropTrailingWs
    rw [List.dropWhile_cons, hqw]
    simp only [Bool.false_eq_true, if_false]
    rw [← List.cons_append]
    exact List.rdropWhile_concat_neg rustWs (q :: interior) q (by simp [hqw])
  rw [htr] at hstep
  have hlast : (q :: (interior ++ [q])).getLast? = some q := by
    rw [← List.cons_append]
    exact List.getLast?_concat _
  have hcv : classifyValue (rustTrim l) (q :: (interior ++ [q])) =
      some (EnvLine.Direct (rustTrim l) interior) := by
    unfold classifyValue
    rw [if_neg (by simp [hqd])]
    rw [if_pos ?hcond]
    case hcond =>
      rcases hq with h | h <;> subst h <;>
        simp [hlast]
    rw [if_pos (by
      simp only [List.length_cons, List.length_append, List.length_singleton]
      omega)]
    rw [show (q :: (interior ++ [q])).drop 1 = interior ++ [q] from rfl,
      List.dropLast_concat]
  have hfin : parse_env_line (l ++ '=' :: q :: (interior ++ [q])) =
      some (EnvLine.Direct (rustTrim l) interior) := hstep.trans hcv
  refine ⟨hfin, fun a b hcon => ?_⟩
  rw [hfin] at hcon
  exact absurd hcon (by simp)

/-- Witness for C10 at the concrete line KEY="$FOO". -/
theorem claim_c10_witness :
    parse_env_line (("KEY").data ++ '=' :: dquote :: (("$FOO").data ++ [dquote])) =
      some (EnvLine.Direct (rustTrim (("KEY").data)) (("$FOO").data)) :=
  (claim_c10_quoted_dollar_is_direct (("KEY").data) (("$FOO").data) dquote
    (by decide) (by decide) (Or.inl rfl) (by decide)).1

/-! ### Lemmas about the resolved-environment map -/

theorem envEntries_subset (pairs : List (List Char × List Char)) :
    ∀ x ∈ envEntries pairs, x ∈ pairs := by
  induction pairs with
  | nil => intro x hx; simp [envEntries] at hx
  | cons p rest ih =>
    intro x hx
    rw [envEntries] at hx
    by_cases h : rest.any (fun q => q.1 == p.1) = true
    · rw [if_pos h] at hx
      exact List.mem_cons_of_mem p (ih x hx)
    · rw [if_neg h] at hx
      rcases List.mem_cons.mp hx with h1 | h1
      · exact List.mem_cons.mpr (Or.inl h1)
      · exact List.mem_cons_of_mem p (ih x h1)

theorem lookupLast_cons (p : List Char × List Char)
    (rest : List (List Char × List Char)) (k : List Char) :
    lookupLast (p :: rest) k =
      (lookupLast rest k).or (if p.1 == k then some p.2 else none) := by
  unfold lookupLast
  rw [List.reverse_cons, List.find?_append]
  cases h : rest.reverse.find? (fun q => q.1 == k) with
  | none => by_cases hk : (p.1 == k) = true <;> simp [hk]
  | some q => simp

theorem lookupLast_eq_none_iff (pairs : List (List Char × List Char))
    (k : List Char) :
    lookupLast pairs k = none ↔ ∀ q ∈ pairs, (q.1 == k) = false := by
  unfold lookupLast
  rw [Option.map_eq_none']
  rw [List.find?_eq_none]
  constructor
  · intro h q hq
    have := h q (List.mem_reverse.mpr hq)
    simpa using this
  · intro h q hq
    have := h q (List.mem_reverse.mp hq)
    simpa using this

theorem envEntries_mem_iff (pairs : List (List Char × List Char))
    (k v : List Char) :
    (k, v) ∈ envEntries pairs ↔ lookupLast pairs k = some v := by
  induction pairs with
  | nil => simp [envEntries, lookupLast]
  | cons p rest ih =>
    rw [envEntries, lookupLast_cons]
    by_cases hA : rest.any (fun q => q.1 == p.1) = true
    · rw [if_pos hA]
      by_cases hk : (p.1 == k) = true
      · have hkeq : p.1 = k := by simpa using hk
        have hsome : lookupLast rest k ≠ none := by
          intro hn
          rw [lookupLast_eq_none_iff] at hn
          rw [List.any_eq_true] at hA
          obtain ⟨q, hq, hqk⟩ := hA
          have hz := hn q hq
          rw [hkeq] at hqk
          rw [hz] at hqk
          exact absurd hqk (by simp)
        cases hl : lookupLast rest k with
        | none => exact absurd hl hsome
        | some w =>
          rw [hl] at ih
          exact ih
      · have hk' : ¬(p.1 == k) = true := hk
        rw [if_neg hk']
        show (k, v) ∈ envEntries rest ↔ (lookupLast rest k).or none = some v
        rw [Option.or_none]
        exact ih
    · rw [if_neg hA]
      have hA' : ∀ q ∈ rest, (q.1 == p.1) = false := by
        intro q hq
        by_contra hq'
        exact hA (List.any_eq_true.mpr ⟨q, hq, by simpa using hq'⟩)
      by_cases hk : (p.1 == k) = true
      · have hkeq : p.1 = k := by simpa using hk
        have hnone : lookupLast rest k = none := by
          rw [lookupLast_eq_none_iff]
          intro q hq
          have := hA' q hq
          rw [hkeq] at this
          exact this
        rw [hnone, if_pos hk, Option.none_or]
        constructor
        · intro hmem
          rcases List.mem_cons.mp hmem with h1 | h1
          · rw [Prod.ext_iff] at h1
            have hv : v = p.2 := h1.2
            rw [hv]
          · have hq := envEntries_subset rest _ h1
            have hz := hA' _ hq
            rw [hkeq] at hz
            simp at hz
        · intro heq
          injection heq with heq
          refine List.mem_cons.mpr (Or.inl ?_)
          rw [Prod.ext_iff]
          exact ⟨hkeq.symm, heq.symm⟩
      · have hk' : ¬(p.1 == k) = true := hk
        rw [if_neg hk', Option.or_none]
        constructor
        · intro hmem
          rcases List.mem_cons.mp hmem with h1 | h1
          · rw [Prod.ext_iff] at h1
            rw [← h1.1] at hk'
            simp at hk'
          · exact ih.mp h1
        · intro h
          exact List.mem_cons.mpr (Or.inr (ih.mpr h))

/-- Claim C2: the resolved environment maps a duplicated key to the value
contributed by the last surviving directive for that key in file line
order, and to nothing else. -/
theorem claim_c2_last_directive_wins (store : List Char → Option (List Char))
    (lines : List EnvLine) (out : List (List Char × List Char))
    (k v : List Char) (hres : processResult store lines out)
    (hlast : lookupLast (resolvedPairs store lines) k = some v) :
    (k, v) ∈ out ∧ ∀ v', (k, v') ∈ out → v' = v := by
  have hmem : (k, v) ∈ envEntries (resolvedPairs store lines) :=
    (envEntries_mem_iff _ k v).mpr hlast
  refine ⟨hres.mem_iff.mpr hmem, fun v' hv' => ?_⟩
  have h2 : (k, v') ∈ envEntries (resolvedPairs store lines) :=
    hres.mem_iff.mp hv'
  have h3 := (envEntries_mem_iff _ k v').mp h2
  rw [hlast] at h3
  injection h3 with h3
  exact h3.symm

/-- Witness for C2: the file A=1, A=2 resolves A to 2. -/
theorem claim_c2_witness :
    ((("A").data, ("2").data) ∈
      ([((("A").data), (("2").data))] : List (List Char × List Char))) :=
  (claim_c2_last_directive_wins (fun _ => none)
    [EnvLine.Direct (("A").data) (("1").data),
     EnvLine.Direct (("A").data) (("2").data)]
    [((("A").data), (("2").data))] (("A").data) (("2").data)
    (by unfold processResult; decide) (by decide)).1

/-- Claim C3 counterexample: for the file A=1, B=2 the output list in the
reverse of line order is a possible result of process_env_file (the
HashMap iteration order is unspecified), and it differs from the
line-index-ordered environment the specification demands. -/
theorem claim_c3_order_counterexample :
    processResult (fun _ => none)
      [EnvLine.Direct (("A").data) (("1").data),
       EnvLine.Direct (("B").data) (("2").data)]
      [((("B").data), (("2").data)), ((("A").data), (("1").data))] ∧
    [((("B").data), (("2").data)), ((("A").data), (("1").data))] ≠
      specOrderedEnvironment (fun _ => none)
        [EnvLine.Direct (("A").data) (("1").data),
         EnvLine.Direct (("B").data) (("2").data)] := by
  constructor
  · unfold processResult
    decide
  · decide

/-- Claim C3 amended: every possible output of process_env_file contains
exactly the last-write-wins entries - a pair is present iff its value is
the one contributed by the last surviving directive for its key - but in
an unspecified order, not necessarily source line order. -/
theorem claim_c3_amended_unordered_entries
    (store : List Char → Option (List Char)) (lines : List EnvLine)
    (out : List (List Char × List Char)) (hres : processResult store lines out)
    (k v : List Char) :
    (k, v) ∈ out ↔ lookupLast (resolvedPairs store lines) k = some v := by
  rw [hres.mem_iff]
  exact envEntries_mem_iff _ k v

/-- Witness for the amended C3 on the file A=1, B=2 with a reordered
output. -/
theorem claim_c3_amended_witness :
    ((("A").data, ("1").data) ∈
      [((("B").data), (("2").data)), ((("A").data), (("1").data))]) :=
  (claim_c3_amended_unordered_entries (fun _ => none)
    [EnvLine.Direct (("A").data) (("1").data),
     EnvLine.Direct (("B").data) (("2").data)]
    [((("B").data), (("2").data)), ((("A").data), (("1").data))]
    (by unfold processResult; decide) (("A").data) (("1").data)).mpr (by decide)

/-- Claim C4: a failed store lookup for an Alias or Lookup directive does
not abort resolution: the warning names the exported key and the keyring
name attempted, any binding of that key in the output comes from some
other surviving directive, and every surviving last-write entry is still
present in the output. -/
theorem claim_c4_lookup_failure_recoverable
    (store : List Char → Option (List Char)) (lines : List EnvLine)
    (out : List (List Char × List Char)) (k kk : List Char)
    (hres : processResult store lines out)
    (hfail : (EnvLine.Alias k kk ∈ lines ∧ store kk = none) ∨
             (EnvLine.Lookup k ∈ lines ∧ store k = none ∧ kk = k)) :
    (k, kk) ∈ warnings store lines ∧
    (∀ v, (k, v) ∈ out → ∃ line ∈ lines, resolveLine store line = some (k, v)) ∧
    (∀ k' v', lookupLast (resolvedPairs store lines) k' = some v' →
      (k', v') ∈ out) := by
  refine ⟨?_, ?_, ?_⟩
  · rcases hfail with ⟨hmem, hnone⟩ | ⟨hmem, hnone, hkk⟩
    · exact List.mem_filterMap.mpr
        ⟨EnvLine.Alias k kk, hmem, by simp [warningFor, hnone]⟩
    · rw [hkk]
      exact List.mem_filterMap.mpr
        ⟨EnvLine.Lookup k, hmem, by simp [warningFor, hnone]⟩
  · intro v hv
    have h1 : (k, v) ∈ envEntries (resolvedPairs store lines) :=
      hres.mem_iff.mp hv
    have h2 : (k, v) ∈ resolvedPairs store lines := envEntries_subset _ _ h1
    exact List.mem_filterMap.mp h2
  · intro k' v' hlk
    exact hres.mem_iff.mpr ((envEntries_mem_iff _ k' v').mpr hlk)

/-- Witness for C4: the file B=$S, A=1 over an empty store warns about
(B, S) and still delivers the Direct entry A=1. -/
theorem claim_c4_witness :
    ((("B").data, ("S").data) ∈ warnings (fun _ => none)
      [EnvLine.Alias (("B").data) (("S").data),
       EnvLine.Direct (("A").data) (("1").data)]) ∧
    ((("A").data, ("1").data) ∈
      ([((("A").data), (("1").data))] : List (List Char × List Char))) :=
  ⟨(claim_c4_lookup_failure_recoverable (fun _ => none)
      [EnvLine.Alias (("B").data) (("S").data),
       EnvLine.Direct (("A").data) (("1").data)]
      [((("A").data), (("1").data))] (("B").data) (("S").data)
      (by unfold processResult; decide) (Or.inl ⟨by decide, rfl⟩)).1,
   (claim_c4_lookup_failure_recoverable (fun _ => none)
      [EnvLine.Alias (("B").data) (("S").data),
       EnvLine.Direct (("A").data) (("1").data)]
      [((("A").data), (("1").data))] (("B").data) (("S").data)
      (by unfold processResult; decide) (Or.inl ⟨by decide, rfl⟩)).2.2
      (("A").data) (("1").data) (by decide)⟩

/-- Claim C5 counterexample: list_secret_labels returns the labels in the
store's enumeration order without sorting - a store that enumerates B
before A yields the unsorted sequence B, A. -/
theorem claim_c5_unsorted_counterexample :
    list_secret_labels
      [⟨[(("username"), ("B"))]⟩, ⟨[(("username"), ("A"))]⟩] =
      some [("B"), ("A")] ∧
    sortedLabels [("B"), ("A")] = false := by
  constructor <;> decide

/-- Claim C5 amended: when the underlying listing succeeds,
list_secret_labels returns exactly one label per store item, in the
store's enumeration order (position i of the output is the label of
item i), with no sorting applied. -/
theorem claim_c5_amended_store_order (items : List StoreItem)
    (out : List String) (h : list_secret_labels items = some out) :
    out.length = items.length ∧
    ∀ i (hi : i < items.length) (ho : i < out.length),
      itemLabel (items.get ⟨i, hi⟩) = some (out.get ⟨i, ho⟩) := by
  induction items generalizing out with
  | nil =>
    rw [list_secret_labels] at h
    injection h with h
    subst h
    exact ⟨rfl, fun i hi ho => absurd hi (by simp)⟩
  | cons item rest ih =>
    rw [list_secret_labels] at h
    cases hl : itemLabel item with
    | none => rw [hl] at h; exact absurd h (by simp)
    | some name =>
      rw [hl] at h
      cases hr : list_secret_labels rest with
      | none => rw [hr] at h; exact absurd h (by simp)
      | some ns =>
        rw [hr] at h
        simp only [Option.some_bind, Option.map_some'] at h
        injection h with h
        subst h
        obtain ⟨hlen, hidx⟩ := ih ns hr
        constructor
        · simp [hlen]
        · intro i hi ho
          cases i with
          | zero => exact hl
          | succ j =>
            have hj : j < rest.length := by simpa using hi
            have hj2 : j < ns.length := by simpa using ho
            exact hidx j hj hj2

/-- Witness for the amended C5 on a two-item store. -/
theorem claim_c5_amended_witness :
    itemLabel ⟨[(("username"), ("B"))]⟩ = some ("B") :=
  (claim_c5_amended_store_order
    [⟨[(("username"), ("B"))]⟩, ⟨[(("username"), ("A"))]⟩]
    [("B"), ("A")] (by decide)).2 0 (by decide) (by decide)

end Envgg
